import Mathlib

set_option autoImplicit false

namespace RAG

/-!
Shallow embedding of the OpenAI-RAG-App indexing path.

Embedded from the source files:
  - `split_pdf`, `extract_pdf` from src/src/pdf_handler.py
  - `setup_pinecone`, `setup_chroma`, `VectorDB.__init__`, `VectorDB.index`
    from src/src/vectorstore.py
  - the knowledge-base-update wiring of `main` / `load_chain` from src/app.py

The reconciliation algorithm itself (langchain's `index` /
`SQLRecordManager`) and the concrete text splitter
(`RecursiveCharacterTextSplitter`) are external library calls, so they are
modelled from the specification (spec sections 4.1, 4.2, 4.3, 4.5); each such
definition carries a doc comment saying so.
-/

/-! ### Data model -/

/-- A source document record: extracted text plus its source identifier. -/
structure Document where
  source : String
  text : String
deriving DecidableEq

/-- A chunk produced by the chunker: a text window carrying provenance
metadata (source identifier and character position). -/
structure Chunk where
  source : String
  position : Nat
  text : String
deriving DecidableEq

/-- Modelled from the spec: the content fingerprinter of section 4.2, a
deterministic, collision-resistant digest of the chunk text; the
cryptographic hash is idealized as an injective function on the text. -/
def digest (t : String) : String := t

/-- The chunk identity exposed to the ledger and the vector store, derived
from the pair of the source identifier and the content digest (spec 4.2). -/
def chunkId (c : Chunk) : String × String := (c.source, digest c.text)

/-- A ledger (record manager) row: chunk key, content hash, source group and
last-seen logical timestamp (spec section 3, LedgerEntry). -/
structure LedgerEntry where
  key : String × String
  contentHash : String
  groupId : String
  lastSeen : Nat
deriving DecidableEq

/-- The joint state mutated by a reconciliation run: the durable ledger and
the vector store contents (ids mapped to the stored chunk). -/
structure RMState where
  ledger : List LedgerEntry
  store : List ((String × String) × Chunk)
deriving DecidableEq

def emptyRM : RMState := ⟨[], []⟩

/-- The cleanup modes of spec section 4.5. -/
inductive CleanupMode where
  | full
  | incremental
  | nocleanup
deriving DecidableEq

/-- The counts returned by one reconciliation run. -/
structure ReconcileResult where
  numAdded : Nat
  numSkipped : Nat
  numDeleted : Nat
deriving DecidableEq

/-! ### Reconciler, modelled from spec section 4.5 -/

/-- A chunk is unchanged when a ledger entry with its key and its content
hash already exists (spec 4.5, step 2). -/
def isUnchanged (ledger : List LedgerEntry) (c : Chunk) : Bool :=
  ledger.any fun e => decide (e.key = chunkId c ∧ e.contentHash = digest c.text)

/-- Upsert one embedded chunk into the vector store under its id, replacing
any previous vector stored under the same id. -/
def storeUpsert (store : List ((String × String) × Chunk)) (c : Chunk) :
    List ((String × String) × Chunk) :=
  (chunkId c, c) :: store.filter fun p => decide (p.1 ≠ chunkId c)

/-- The ledger row written for a chunk observed at time `t` in group `g`. -/
def entryFor (g : String) (t : Nat) (c : Chunk) : LedgerEntry :=
  ⟨chunkId c, digest c.text, g, t⟩

/-- Upsert one ledger row, setting its last-seen time to `t`
(spec 4.3, `update`). -/
def ledgerUpsert (g : String) (t : Nat) (ledger : List LedgerEntry) (c : Chunk) :
    List LedgerEntry :=
  entryFor g t c :: ledger.filter fun e => decide (e.key ≠ chunkId c)

/-- A ledger row is stale for a full-cleanup pass at time `t` when it belongs
to the group and was not touched in this run (spec 4.5, step 4). -/
def isStale (g : String) (t : Nat) (e : LedgerEntry) : Bool :=
  decide (e.groupId = g ∧ e.lastSeen < t)

/-- Modelled from the spec: the index reconciler of section 4.5 (realized in
the source by langchain's `index` with `SQLRecordManager`, an external
library call in `VectorDB.index`).  New-or-changed chunks are upserted into
the vector store, every incoming key is touched in the ledger with
`last_seen = t`, and under `full` cleanup every group key not touched in
this run is deleted from both the ledger and the vector store. -/
def reconcile (g : String) (chunks : List Chunk) (mode : CleanupMode) (t : Nat)
    (st : RMState) : ReconcileResult × RMState :=
  let newOrChanged := chunks.filter fun c => !isUnchanged st.ledger c
  let store1 := newOrChanged.foldl storeUpsert st.store
  let ledger1 := chunks.foldl (ledgerUpsert g t) st.ledger
  match mode with
  | .full =>
      let staleKeys := (ledger1.filter (isStale g t)).map LedgerEntry.key
      ({ numAdded := newOrChanged.length,
         numSkipped := chunks.length - newOrChanged.length,
         numDeleted := staleKeys.length },
       { ledger := ledger1.filter fun e => !isStale g t e,
         store := store1.filter fun p => decide (p.1 ∉ staleKeys) })
  | .incremental =>
      ({ numAdded := newOrChanged.length,
         numSkipped := chunks.length - newOrChanged.length,
         numDeleted := 0 },
       { ledger := ledger1, store := store1 })
  | .nocleanup =>
      ({ numAdded := newOrChanged.length,
         numSkipped := chunks.length - newOrChanged.length,
         numDeleted := 0 },
       { ledger := ledger1, store := store1 })

/-! ### Chunker -/

/-- Modelled from the spec: the chunking policy of section 4.1 — overlapping
windows emitted by scanning the text, the final window possibly shorter (the
concrete splitter in the source is langchain's
`RecursiveCharacterTextSplitter`, an external library).  The recursion is
fuel-based; fuel `len` suffices whenever `overlap < size`, since each step
advances the start by `size - overlap ≥ 1`. -/
def chunkSpansAux (size overlap len : Nat) : Nat → Nat → List (Nat × Nat)
  | 0, start => [(start, len)]
  | fuel + 1, start =>
    if len ≤ start + size then [(start, len)]
    else (start, start + size) :: chunkSpansAux size overlap len fuel (start + (size - overlap))

/-- Character spans of the windows produced for a text of length `len`. -/
def chunkSpans (size overlap len : Nat) : List (Nat × Nat) :=
  if len = 0 then [] else chunkSpansAux size overlap len len 0

/-- The substring of `t` on the character span from `a` inclusive to `b`
exclusive. -/
def sliceStr (t : String) (a b : Nat) : String :=
  String.mk ((t.toList.drop a).take (b - a))

/-- Split one document into chunks with window 512 and overlap 64 — the
configuration hard-coded in `split_pdf` (src/src/pdf_handler.py). -/
def splitDocument (d : Document) : List Chunk :=
  (chunkSpans 512 64 d.text.length).map fun sp => ⟨d.source, sp.1, sliceStr d.text sp.1 sp.2⟩

/-- Embeds `split_pdf` from src/src/pdf_handler.py: an empty input list yields `[]`
immediately; otherwise every document is split with window 512 / overlap 64. -/
def split_pdf (pdfs : List Document) : List Chunk :=
  if pdfs.isEmpty then [] else (pdfs.map splitDocument).flatten

/-! ### PDF extraction and loading -/

/-- An uploaded file: `readable = false` means reading or writing its bytes
raises during extraction; `malformed = true` means the PDF parser fails on
it at load time; `text` is the text it yields when well-formed. -/
structure UFile where
  name : String
  readable : Bool
  malformed : Bool
  text : String
deriving DecidableEq

/-- The argument of `extract_pdf`: either a single uploaded file or a list
of them (src/src/pdf_handler.py normalizes a non-list input to a
one-element list). -/
inductive Uploaded where
  | single (f : UFile)
  | multiple (files : List UFile)
deriving DecidableEq

def normalizeUploaded : Uploaded → List UFile
  | .single f => [f]
  | .multiple fs => fs

/-- A filesystem: directory names mapped to the files they contain. -/
abbrev FS := List (String × List (String × UFile))

/-- Write the uploaded files one by one under unique names (the source
prefixes each original name with a fresh uuid, modelled by the running
index); the first unreadable file raises. -/
def writeFiles : List UFile → Nat → Except String (List (String × UFile))
  | [], _ => .ok []
  | f :: rest, i =>
    if f.readable then
      (writeFiles rest (i + 1)).map fun ws => (toString i ++ "_" ++ f.name, f) :: ws
    else
      .error ("Failed to extract PDF: could not read " ++ f.name)

/-- Embeds `extract_pdf` from src/src/pdf_handler.py: create a fresh temporary
directory, normalize the input to a list, write each file under a unique
name; on any failure the whole temporary directory is removed
(`shutil.rmtree`) before the exception propagates, leaving the filesystem
unchanged. -/
def extract_pdf (up : Uploaded) (tempDir : String) (fs : FS) : FS × Except String String :=
  match writeFiles (normalizeUploaded up) 0 with
  | .ok ws => ((tempDir, ws) :: fs, .ok tempDir)
  | .error e => (fs, .error e)

/-- Modelled from the spec: `load_pdf_directory` wraps langchain's
`PyPDFDirectoryLoader` (an external library); it yields one text+source
record per file in the directory (spec section 6, document source) and
fails on the first malformed document (spec section 7, ExtractionError). -/
def load_pdf_directory : List (String × UFile) → Except String (List Document)
  | [] => .ok []
  | (n, f) :: rest =>
    if f.malformed then .error ("could not parse " ++ n)
    else (load_pdf_directory rest).map fun ds => Document.mk n f.text :: ds

/-! ### Vector store backends (src/src/vectorstore.py) -/

/-- The remote Pinecone backend state: existing indexes with the embedding
dimension each was created with. -/
structure PineconeState where
  indexes : List (String × Nat)
deriving DecidableEq

/-- The dimension of the named Pinecone index, when it exists
(`pc.describe_index(...).dimension`). -/
def pineconeDim (st : PineconeState) (name : String) : Option Nat :=
  (st.indexes.find? fun p => decide (p.1 = name)).map Prod.snd

/-- Embeds `setup_pinecone` from src/src/vectorstore.py: if the index exists and
its dimension is truthy and differs from the configured embedding
dimension, delete it; then create the index with the configured dimension
whenever it does not exist (any more). -/
def setup_pinecone (indexName : String) (embeddingDim : Nat) (st : PineconeState) :
    PineconeState :=
  let indexExists := st.indexes.any fun p => decide (p.1 = indexName)
  let mismatch :=
    indexExists &&
      (match pineconeDim st indexName with
       | some d => decide (d ≠ 0) && decide (d ≠ embeddingDim)
       | none => false)
  let st1 :=
    if mismatch then PineconeState.mk (st.indexes.filter fun p => decide (p.1 ≠ indexName))
    else st
  if indexExists && !mismatch then st1
  else PineconeState.mk ((indexName, embeddingDim) :: st1.indexes)

/-- The local Chroma backend state: collections with the embedding dimension
they were populated with (`none` while still empty). -/
structure ChromaState where
  collections : List (String × Option Nat)
deriving DecidableEq

/-- The dimension the named Chroma collection was populated with, if any. -/
def chromaDim (st : ChromaState) (name : String) : Option Nat :=
  match st.collections.find? fun p => decide (p.1 = name) with
  | some p => p.2
  | none => none

/-- Embeds `setup_chroma` from src/src/vectorstore.py: get-or-create the named
collection in the persist directory; an existing collection is reused
as-is — no dimension metadata is inspected and nothing is recreated. -/
def setup_chroma (indexName : String) (st : ChromaState) : ChromaState :=
  if st.collections.any fun p => decide (p.1 = indexName) then st
  else ChromaState.mk ((indexName, none) :: st.collections)

/-- The state owned by a `VectorDB` object: both backend states plus the
ledger/vector-store pair driven by reconciliation. -/
structure VDB where
  pinecone : PineconeState
  chroma : ChromaState
  rm : RMState
deriving DecidableEq

/-- Embeds `VectorDB.__init__` from src/src/vectorstore.py: select the backend by
`db_name`; the pinecone path runs the dimension check of `setup_pinecone`,
any other name runs `setup_chroma`; the persisted record manager state is
carried over. -/
def VectorDB_init (dbName indexName : String) (embeddingDim : Nat)
    (pc : PineconeState) (ch : ChromaState) (rm : RMState) : VDB :=
  if dbName = "pinecone" then ⟨setup_pinecone indexName embeddingDim pc, ch, rm⟩
  else ⟨pc, setup_chroma indexName ch, rm⟩

def isOkE {ε α : Type} : Except ε α → Bool
  | .ok _ => true
  | .error _ => false

/-- Embeds `VectorDB.index` from src/src/vectorstore.py: extract the upload to a
temporary directory, load every file in it, split into chunks, reconcile
with `cleanup='full'`, then delete the temporary files and the directory;
any exception on the way aborts the run (it is re-raised as "Failed to
index document"), leaving the ledger and vector store untouched. -/
def VectorDB_index (g : String) (t : Nat) (up : Uploaded) (tempDir : String)
    (fs : FS) (v : VDB) : Except String ReconcileResult × FS × VDB :=
  match extract_pdf up tempDir fs with
  | (fs1, .error e) => (.error ("Failed to index document: " ++ e), fs1, v)
  | (fs1, .ok dir) =>
    match fs1.find? fun p => decide (p.1 = dir) with
    | none => (.error "Failed to index document: missing directory", fs1, v)
    | some dirEntry =>
      match load_pdf_directory dirEntry.2 with
      | .error e => (.error ("Failed to index document: " ++ e), fs1, v)
      | .ok docs =>
        let chunks := split_pdf docs
        let rr := reconcile g chunks CleanupMode.full t v.rm
        (.ok rr.1, fs1.filter fun p => decide (p.1 ≠ dir), { v with rm := rr.2 })

/-! ### app.py wiring -/

/-- The `uploaded_file` argument `main` passes to `load_chain`
(src/app.py): the first element of the uploaded-file list when it is
nonempty, else `None`. -/
def load_chain_uploaded_file : List UFile → Option UFile
  | [] => none
  | f :: _ => some f

/-- The file `main` passes to `update_chain` on a knowledge-base update
(src/app.py): `uploaded_pdf[0]`, guarded by `knowledge_change` and the
upload list being nonempty (Python truthiness of the list). -/
def knowledge_update_arg (uploadedPdf : List UFile) (knowledgeChange : Bool) : Option UFile :=
  if knowledgeChange then
    match uploadedPdf with
    | [] => none
    | f :: _ => some f
  else none

/-- Modelled from the spec: the knowledge-base-update step of `main`
(src/app.py) forwards the selected file through `update_chain`
(src/openai_chain.py, not present under src/) into `VectorDB.index` as a
single uploaded file. -/
def main_knowledge_update (g : String) (t : Nat) (uploadedPdf : List UFile)
    (knowledgeChange : Bool) (tempDir : String) (fs : FS) (v : VDB) : FS × VDB :=
  match knowledge_update_arg uploadedPdf knowledgeChange with
  | none => (fs, v)
  | some f =>
    let r := VectorDB_index g t (Uploaded.single f) tempDir fs v
    (r.2.1, r.2.2)

/-! ### Helper lemmas about reconciliation runs -/

/-- The stored pair a chunk contributes to the vector store. -/
def storePair (c : Chunk) : (String × String) × Chunk := (chunkId c, c)

theorem filter_ne_key_eq_self {L : List LedgerEntry} {k : String × String}
    (h : ∀ e ∈ L, e.key ≠ k) :
    (L.filter fun e => decide (e.key ≠ k)) = L :=
  List.filter_eq_self.mpr fun e he => by simpa using h e he

theorem isUnchanged_iff {L : List LedgerEntry} {c : Chunk} :
    isUnchanged L c = true ↔
      ∃ e ∈ L, e.key = chunkId c ∧ e.contentHash = digest c.text := by
  simp [isUnchanged]

theorem foldl_ledgerUpsert_fresh (g : String) (t : Nat) :
    ∀ (C : List Chunk) (L : List LedgerEntry),
      (∀ c ∈ C, ∀ e ∈ L, e.key ≠ chunkId c) → (C.map chunkId).Nodup →
      C.foldl (ledgerUpsert g t) L = (C.map (entryFor g t)).reverse ++ L
  | [], _, _, _ => rfl
  | c :: C, L, hdisj, hnd => by
    rw [List.map_cons] at hnd
    have hid : chunkId c ∉ C.map chunkId := (List.nodup_cons.mp hnd).1
    have hnd2 : (C.map chunkId).Nodup := (List.nodup_cons.mp hnd).2
    have hup : ledgerUpsert g t L c = entryFor g t c :: L := by
      unfold ledgerUpsert
      rw [filter_ne_key_eq_self fun e he => hdisj c (List.mem_cons_self c C) e he]
    have hdisj2 : ∀ c' ∈ C, ∀ e ∈ entryFor g t c :: L, e.key ≠ chunkId c' := by
      intro c' hc' e he hkey
      rcases List.mem_cons.mp he with h | h
      · subst h
        have hcc : chunkId c = chunkId c' := hkey
        exact hid (by rw [hcc]; exact List.mem_map_of_mem chunkId hc')
      · exact hdisj c' (List.mem_cons_of_mem c hc') e h hkey
    have := foldl_ledgerUpsert_fresh g t C (entryFor g t c :: L) hdisj2 hnd2
    calc (c :: C).foldl (ledgerUpsert g t) L
        = C.foldl (ledgerUpsert g t) (entryFor g t c :: L) := by
          rw [List.foldl_cons, hup]
      _ = ((c :: C).map (entryFor g t)).reverse ++ L := by
          rw [this]; simp

theorem foldl_storeUpsert_fresh :
    ∀ (C : List Chunk) (S : List ((String × String) × Chunk)),
      (∀ c ∈ C, ∀ p ∈ S, p.1 ≠ chunkId c) → (C.map chunkId).Nodup →
      C.foldl storeUpsert S = (C.map storePair).reverse ++ S
  | [], _, _, _ => rfl
  | c :: C, S, hdisj, hnd => by
    rw [List.map_cons] at hnd
    have hid : chunkId c ∉ C.map chunkId := (List.nodup_cons.mp hnd).1
    have hnd2 : (C.map chunkId).Nodup := (List.nodup_cons.mp hnd).2
    have hup : storeUpsert S c = storePair c :: S := by
      unfold storeUpsert
      rw [List.filter_eq_self.mpr fun p hp => by
        simpa using hdisj c (List.mem_cons_self c C) p hp]
      rfl
    have hdisj2 : ∀ c' ∈ C, ∀ p ∈ storePair c :: S, p.1 ≠ chunkId c' := by
      intro c' hc' p hp hkey
      rcases List.mem_cons.mp hp with h | h
      · subst h
        have hcc : chunkId c = chunkId c' := hkey
        exact hid (by rw [hcc]; exact List.mem_map_of_mem chunkId hc')
      · exact hdisj c' (List.mem_cons_of_mem c hc') p h hkey
    have := foldl_storeUpsert_fresh C (storePair c :: S) hdisj2 hnd2
    calc (c :: C).foldl storeUpsert S
        = C.foldl storeUpsert (storePair c :: S) := by rw [List.foldl_cons, hup]
      _ = ((c :: C).map storePair).reverse ++ S := by rw [this]; simp

theorem foldl_ledgerUpsert_refresh (g : String) (t1 t2 : Nat) :
    ∀ (C : List Chunk) (M : List LedgerEntry),
      (∀ c ∈ C, ∀ e ∈ M, e.key ≠ chunkId c) → (C.map chunkId).Nodup →
      C.foldl (ledgerUpsert g t2) (M ++ (C.map (entryFor g t1)).reverse) =
        (C.map (entryFor g t2)).reverse ++ M
  | [], M, _, _ => by simp
  | c :: C, M, hdisj, hnd => by
    rw [List.map_cons] at hnd
    have hid : chunkId c ∉ C.map chunkId := (List.nodup_cons.mp hnd).1
    have hnd2 : (C.map chunkId).Nodup := (List.nodup_cons.mp hnd).2
    have hstep : ledgerUpsert g t2 (M ++ ((c :: C).map (entryFor g t1)).reverse) c =
        (entryFor g t2 c :: M) ++ (C.map (entryFor g t1)).reverse := by
      unfold ledgerUpsert
      rw [List.map_cons, List.reverse_cons, List.filter_append, List.filter_append]
      rw [filter_ne_key_eq_self fun e he => hdisj c (List.mem_cons_self c C) e he]
      rw [filter_ne_key_eq_self (L := (C.map (entryFor g t1)).reverse) ?hrev]
      case hrev =>
        intro e he hkey
        rcases List.mem_map.mp (List.mem_reverse.mp he) with ⟨c', hc', hec⟩
        apply hid
        have : chunkId c' = chunkId c := by rw [← hec] at hkey; exact hkey
        exact this ▸ List.mem_map_of_mem chunkId hc'
      simp [entryFor]
    have hdisj2 : ∀ c' ∈ C, ∀ e ∈ entryFor g t2 c :: M, e.key ≠ chunkId c' := by
      intro c' hc' e he hkey
      rcases List.mem_cons.mp he with h | h
      · subst h
        have hcc : chunkId c = chunkId c' := hkey
        exact hid (by rw [hcc]; exact List.mem_map_of_mem chunkId hc')
      · exact hdisj c' (List.mem_cons_of_mem c hc') e h hkey
    have := foldl_ledgerUpsert_refresh g t1 t2 C (entryFor g t2 c :: M) hdisj2 hnd2
    calc (c :: C).foldl (ledgerUpsert g t2) (M ++ ((c :: C).map (entryFor g t1)).reverse)
        = C.foldl (ledgerUpsert g t2)
            ((entryFor g t2 c :: M) ++ (C.map (entryFor g t1)).reverse) := by
          rw [List.foldl_cons, hstep]
      _ = ((c :: C).map (entryFor g t2)).reverse ++ M := by rw [this]; simp

theorem isStale_entryFor_self (g : String) (t : Nat) (c : Chunk) :
    isStale g t (entryFor g t c) = false := by
  simp [isStale, entryFor]

/-- A first full-cleanup run from the empty state adds every chunk, skips
and deletes nothing, and leaves the ledger and store holding exactly the
incoming chunk set, stamped with the run time. -/
theorem reconcile_full_fresh (g : String) (t : Nat) (C : List Chunk)
    (hnd : (C.map chunkId).Nodup) :
    reconcile g C CleanupMode.full t emptyRM =
      ({ numAdded := C.length, numSkipped := 0, numDeleted := 0 },
       { ledger := (C.map (entryFor g t)).reverse,
         store := (C.map storePair).reverse }) := by
  have hnoc : (C.filter fun c => !isUnchanged emptyRM.ledger c) = C :=
    List.filter_eq_self.mpr fun c _ => by simp [isUnchanged, emptyRM]
  have hledger : C.foldl (ledgerUpsert g t) emptyRM.ledger =
      (C.map (entryFor g t)).reverse := by
    have := foldl_ledgerUpsert_fresh g t C [] (by simp) hnd
    simpa [emptyRM] using this
  have hstore : C.foldl storeUpsert emptyRM.store = (C.map storePair).reverse := by
    have := foldl_storeUpsert_fresh C [] (by simp) hnd
    simpa [emptyRM] using this
  have hstale : ((C.map (entryFor g t)).reverse.filter (isStale g t)) = [] := by
    rw [List.filter_eq_nil_iff]
    intro e he
    rcases List.mem_map.mp (List.mem_reverse.mp he) with ⟨c, _, hec⟩
    rw [← hec, isStale_entryFor_self]
    simp
  simp only [reconcile, hnoc, hledger, hstore, hstale]
  refine Prod.ext ?_ ?_
  · simp
  · simp only [List.map_nil]
    refine congrArg₂ RMState.mk ?_ ?_
    · apply List.filter_eq_self.mpr
      intro e he
      rcases List.mem_map.mp (List.mem_reverse.mp he) with ⟨c, _, hec⟩
      rw [← hec, isStale_entryFor_self]
      rfl
    · apply List.filter_eq_self.mpr
      intro p _
      simp

/-- A repeated full-cleanup run over a ledger that already holds exactly the
incoming chunk set adds and deletes nothing, skips everything, refreshes
every last-seen stamp to the new run time and leaves the store untouched. -/
theorem reconcile_full_repeat (g : String) (t1 t2 : Nat) (C : List Chunk)
    (hnd : (C.map chunkId).Nodup) (S : List ((String × String) × Chunk)) :
    reconcile g C CleanupMode.full t2 ⟨(C.map (entryFor g t1)).reverse, S⟩ =
      ({ numAdded := 0, numSkipped := C.length, numDeleted := 0 },
       { ledger := (C.map (entryFor g t2)).reverse, store := S }) := by
  have hnoc : (C.filter fun c => !isUnchanged ((C.map (entryFor g t1)).reverse) c) = [] := by
    rw [List.filter_eq_nil_iff]
    intro c hc
    have hiu : isUnchanged ((C.map (entryFor g t1)).reverse) c = true :=
      isUnchanged_iff.mpr ⟨entryFor g t1 c,
        List.mem_reverse.mpr (List.mem_map_of_mem (entryFor g t1) hc), rfl, rfl⟩
    simp [hiu]
  have hledger : C.foldl (ledgerUpsert g t2) ((C.map (entryFor g t1)).reverse) =
      (C.map (entryFor g t2)).reverse := by
    have := foldl_ledgerUpsert_refresh g t1 t2 C [] (by simp) hnd
    simpa using this
  have hstale : ((C.map (entryFor g t2)).reverse.filter (isStale g t2)) = [] := by
    rw [List.filter_eq_nil_iff]
    intro e he
    rcases List.mem_map.mp (List.mem_reverse.mp he) with ⟨c, _, hec⟩
    rw [← hec, isStale_entryFor_self]
    simp
  simp only [reconcile, hnoc, hledger, hstale]
  refine Prod.ext ?_ ?_
  · simp
  · simp only [List.map_nil, List.foldl_nil]
    refine congrArg₂ RMState.mk ?_ ?_
    · apply List.filter_eq_self.mpr
      intro e he
      rcases List.mem_map.mp (List.mem_reverse.mp he) with ⟨c, _, hec⟩
      rw [← hec, isStale_entryFor_self]
      rfl
    · apply List.filter_eq_self.mpr
      intro p _
      simp

def ca : Chunk := ⟨"a.pdf", 0, "alpha"⟩
def cb : Chunk := ⟨"b.pdf", 0, "beta"⟩

/-- C1 (amended): a second full-cleanup run with the identical chunk set
over a group that was just fully indexed returns `num_added = 0`,
`num_deleted = 0`, `num_skipped = len(C)`, leaves the vector store
unchanged, and leaves the ledger unchanged except that every entry's
last-seen stamp is refreshed to the new run's time. -/
theorem reconcile_repeat_counts_and_state (g : String) (C : List Chunk) (t1 t2 : Nat)
    (hnd : (C.map chunkId).Nodup) (ht : t1 < t2) :
    (reconcile g C CleanupMode.full t2 (reconcile g C CleanupMode.full t1 emptyRM).2).1.numAdded = 0 ∧
    (reconcile g C CleanupMode.full t2 (reconcile g C CleanupMode.full t1 emptyRM).2).1.numDeleted = 0 ∧
    (reconcile g C CleanupMode.full t2 (reconcile g C CleanupMode.full t1 emptyRM).2).1.numSkipped = C.length ∧
    (reconcile g C CleanupMode.full t2 (reconcile g C CleanupMode.full t1 emptyRM).2).2.store =
      (reconcile g C CleanupMode.full t1 emptyRM).2.store ∧
    (reconcile g C CleanupMode.full t2 (reconcile g C CleanupMode.full t1 emptyRM).2).2.ledger =
      (reconcile g C CleanupMode.full t1 emptyRM).2.ledger.map fun e => { e with lastSeen := t2 } := by
  rw [reconcile_full_fresh g t1 C hnd]
  rw [reconcile_full_repeat g t1 t2 C hnd ((C.map storePair).reverse)]
  refine ⟨rfl, rfl, rfl, rfl, ?_⟩
  rw [List.map_reverse, List.map_map]
  rfl

/-- Witness for C1 (amended) at a concrete one-chunk set and times 1, 2. -/
theorem reconcile_repeat_counts_and_state_witness :
    (reconcile "g" [ca] CleanupMode.full 2 (reconcile "g" [ca] CleanupMode.full 1 emptyRM).2).1.numAdded = 0 ∧
    (reconcile "g" [ca] CleanupMode.full 2 (reconcile "g" [ca] CleanupMode.full 1 emptyRM).2).1.numDeleted = 0 ∧
    (reconcile "g" [ca] CleanupMode.full 2 (reconcile "g" [ca] CleanupMode.full 1 emptyRM).2).1.numSkipped = 1 ∧
    (reconcile "g" [ca] CleanupMode.full 2 (reconcile "g" [ca] CleanupMode.full 1 emptyRM).2).2.store =
      (reconcile "g" [ca] CleanupMode.full 1 emptyRM).2.store ∧
    (reconcile "g" [ca] CleanupMode.full 2 (reconcile "g" [ca] CleanupMode.full 1 emptyRM).2).2.ledger =
      (reconcile "g" [ca] CleanupMode.full 1 emptyRM).2.ledger.map fun e => { e with lastSeen := 2 } :=
  reconcile_repeat_counts_and_state "g" [ca] 1 2 (by decide) (by decide)

/-- C1 counterexample: the repeated run does NOT leave the ledger unchanged —
the surviving entries' last-seen stamps are refreshed to the second run's
time, so the ledger after the second run differs from the ledger after the
first. -/
theorem reconcile_repeat_ledger_not_unchanged :
    (reconcile "g" [ca] CleanupMode.full 2 (reconcile "g" [ca] CleanupMode.full 1 emptyRM).2).2.ledger ≠
      (reconcile "g" [ca] CleanupMode.full 1 emptyRM).2.ledger := by decide

/-- A full-cleanup run whose chunk set is disjoint from the previously
indexed one replaces the group's contents: everything old is deleted from
ledger and store, everything new is added. -/
theorem reconcile_full_disjoint (g : String) (t1 t2 : Nat) (A B : List Chunk)
    (hndB : (B.map chunkId).Nodup)
    (hdisj : ∀ k ∈ A.map chunkId, k ∉ B.map chunkId)
    (ht : t1 < t2) :
    reconcile g B CleanupMode.full t2
        ⟨(A.map (entryFor g t1)).reverse, (A.map storePair).reverse⟩ =
      ({ numAdded := B.length, numSkipped := 0, numDeleted := A.length },
       { ledger := (B.map (entryFor g t2)).reverse,
         store := (B.map storePair).reverse }) := by
  have hBnotinA : ∀ c ∈ B, chunkId c ∉ A.map chunkId := fun c hc hmem =>
    hdisj _ hmem (List.mem_map_of_mem chunkId hc)
  have hnoc : (B.filter fun c => !isUnchanged ((A.map (entryFor g t1)).reverse) c) = B := by
    apply List.filter_eq_self.mpr
    intro c hc
    have hiu : ¬isUnchanged ((A.map (entryFor g t1)).reverse) c = true := by
      rw [isUnchanged_iff]
      rintro ⟨e, he, hkey, -⟩
      rcases List.mem_map.mp (List.mem_reverse.mp he) with ⟨a, ha, hea⟩
      apply hBnotinA c hc
      have hac : chunkId a = chunkId c := by rw [← hea] at hkey; exact hkey
      exact hac ▸ List.mem_map_of_mem chunkId ha
    simp [Bool.not_eq_true] at hiu
    simp [hiu]
  have hledger : B.foldl (ledgerUpsert g t2) ((A.map (entryFor g t1)).reverse) =
      (B.map (entryFor g t2)).reverse ++ (A.map (entryFor g t1)).reverse := by
    apply foldl_ledgerUpsert_fresh g t2 B _ ?_ hndB
    intro c hc e he hkey
    rcases List.mem_map.mp (List.mem_reverse.mp he) with ⟨a, ha, hea⟩
    apply hBnotinA c hc
    have hac : chunkId a = chunkId c := by rw [← hea] at hkey; exact hkey
    exact hac ▸ List.mem_map_of_mem chunkId ha
  have hstore : B.foldl storeUpsert ((A.map storePair).reverse) =
      (B.map storePair).reverse ++ (A.map storePair).reverse := by
    apply foldl_storeUpsert_fresh B _ ?_ hndB
    intro c hc p hp hkey
    rcases List.mem_map.mp (List.mem_reverse.mp hp) with ⟨a, ha, hpa⟩
    apply hBnotinA c hc
    have hac : chunkId a = chunkId c := by rw [← hpa] at hkey; exact hkey
    exact hac ▸ List.mem_map_of_mem chunkId ha
  have hstaleB : ((B.map (entryFor g t2)).reverse.filter (isStale g t2)) = [] := by
    rw [List.filter_eq_nil_iff]
    intro e he
    rcases List.mem_map.mp (List.mem_reverse.mp he) with ⟨c, _, hec⟩
    rw [← hec, isStale_entryFor_self]
    simp
  have hstaleA : ((A.map (entryFor g t1)).reverse.filter (isStale g t2)) =
      (A.map (entryFor g t1)).reverse := by
    apply List.filter_eq_self.mpr
    intro e he
    rcases List.mem_map.mp (List.mem_reverse.mp he) with ⟨a, _, hea⟩
    rw [← hea]
    simp [isStale, entryFor, ht]
  have hkeysA : ((A.map (entryFor g t1)).reverse.map LedgerEntry.key) =
      (A.map chunkId).reverse := by
    rw [List.map_reverse, List.map_map]
    rfl
  have hnotstaleA : ((A.map (entryFor g t1)).reverse.filter fun e => !isStale g t2 e) = [] := by
    rw [List.filter_eq_nil_iff]
    intro e he
    rcases List.mem_map.mp (List.mem_reverse.mp he) with ⟨a, _, hea⟩
    rw [← hea]
    simp [isStale, entryFor, ht]
  have hnotstaleB : ((B.map (entryFor g t2)).reverse.filter fun e => !isStale g t2 e) =
      (B.map (entryFor g t2)).reverse := by
    apply List.filter_eq_self.mpr
    intro e he
    rcases List.mem_map.mp (List.mem_reverse.mp he) with ⟨c, _, hec⟩
    rw [← hec, isStale_entryFor_self]
    rfl
  simp only [reconcile, hnoc, hledger, hstore, List.filter_append, hstaleB, hstaleA,
    List.nil_append, hkeysA, hnotstaleA, hnotstaleB, List.append_nil]
  refine Prod.ext ?_ ?_
  · simp
  · refine congrArg₂ RMState.mk rfl ?_
    have hkeep : ((B.map storePair).reverse.filter
        fun p => decide (p.1 ∉ (A.map chunkId).reverse)) = (B.map storePair).reverse := by
      apply List.filter_eq_self.mpr
      intro p hp
      rcases List.mem_map.mp (List.mem_reverse.mp hp) with ⟨b, hb, hpb⟩
      have : p.1 ∉ (A.map chunkId).reverse := by
        rw [List.mem_reverse, ← hpb]
        exact hBnotinA b hb
      simpa using this
    have hdrop : ((A.map storePair).reverse.filter
        fun p => decide (p.1 ∉ (A.map chunkId).reverse)) = [] := by
      rw [List.filter_eq_nil_iff]
      intro p hp
      rcases List.mem_map.mp (List.mem_reverse.mp hp) with ⟨a, ha, hpa⟩
      have : p.1 ∈ (A.map chunkId).reverse := by
        rw [List.mem_reverse, ← hpa]
        exact List.mem_map_of_mem chunkId ha
      simp [this]
    rw [hkeep, hdrop, List.append_nil]

/-- C2: after fully indexing group `g` with chunk set `A` and then with a
disjoint chunk set `B` under full cleanup, the vector store contains exactly
the ids derived from `B`, and the ledger contains no entry whose key was
derived from any chunk of `A`. -/
theorem full_cleanup_deletion_correctness (g : String) (A B : List Chunk) (t1 t2 : Nat)
    (hndA : (A.map chunkId).Nodup) (hndB : (B.map chunkId).Nodup)
    (hdisj : ∀ k ∈ A.map chunkId, k ∉ B.map chunkId)
    (ht : t1 < t2) :
    (∀ k, k ∈ (reconcile g B CleanupMode.full t2
        (reconcile g A CleanupMode.full t1 emptyRM).2).2.store.map Prod.fst ↔
      k ∈ B.map chunkId) ∧
    (∀ e ∈ (reconcile g B CleanupMode.full t2
        (reconcile g A CleanupMode.full t1 emptyRM).2).2.ledger,
      e.key ∉ A.map chunkId) := by
  rw [reconcile_full_fresh g t1 A hndA]
  rw [reconcile_full_disjoint g t1 t2 A B hndB hdisj ht]
  constructor
  · intro k
    rw [List.map_reverse, List.map_map]
    show k ∈ (B.map chunkId).reverse ↔ k ∈ B.map chunkId
    exact List.mem_reverse
  · intro e he
    rcases List.mem_map.mp (List.mem_reverse.mp he) with ⟨b, hb, heb⟩
    intro hmem
    apply hdisj e.key hmem
    rw [← heb]
    exact List.mem_map_of_mem chunkId hb

/-- Witness for C2 at concrete disjoint one-chunk sets. -/
theorem full_cleanup_deletion_correctness_witness :
    chunkId cb ∈ (reconcile "g" [cb] CleanupMode.full 2
        (reconcile "g" [ca] CleanupMode.full 1 emptyRM).2).2.store.map Prod.fst ∧
    chunkId ca ∉ (reconcile "g" [cb] CleanupMode.full 2
        (reconcile "g" [ca] CleanupMode.full 1 emptyRM).2).2.store.map Prod.fst ∧
    chunkId ca ∉ (reconcile "g" [cb] CleanupMode.full 2
        (reconcile "g" [ca] CleanupMode.full 1 emptyRM).2).2.ledger.map LedgerEntry.key := by
  have h := full_cleanup_deletion_correctness "g" [ca] [cb] 1 2
    (by decide) (by decide) (by decide) (by decide)
  refine ⟨(h.1 (chunkId cb)).mpr (by decide), ?_, ?_⟩
  · intro hm
    exact absurd ((h.1 (chunkId ca)).mp hm) (by decide)
  · intro hm
    rcases List.mem_map.mp hm with ⟨e, he, hk⟩
    apply h.2 e he
    rw [hk]
    exact List.mem_singleton.mpr rfl

/-- C3: two chunks with byte-identical text at the same position but
different source metadata have distinct ids, and indexing both stores two
distinct vectors, never a single shared one. -/
theorem distinct_sources_distinct_vectors (g : String) (t : Nat) (a b : Chunk)
    (hs : a.source ≠ b.source) (htxt : a.text = b.text) (hpos : a.position = b.position) :
    chunkId a ≠ chunkId b ∧
    (reconcile g [a, b] CleanupMode.full t emptyRM).2.store.map Prod.fst =
      [chunkId b, chunkId a] := by
  have hid : chunkId a ≠ chunkId b := by
    intro h
    exact hs (congrArg Prod.fst h)
  refine ⟨hid, ?_⟩
  rw [reconcile_full_fresh g t [a, b] (by simp [hid])]
  simp [storePair]

/-- Witness for C3 at two concrete chunks with identical text and position
but different sources. -/
theorem distinct_sources_distinct_vectors_witness :
    chunkId (Chunk.mk "a.pdf" 0 "same") ≠ chunkId (Chunk.mk "b.pdf" 0 "same") ∧
    (reconcile "g" [Chunk.mk "a.pdf" 0 "same", Chunk.mk "b.pdf" 0 "same"]
        CleanupMode.full 1 emptyRM).2.store.map Prod.fst =
      [chunkId (Chunk.mk "b.pdf" 0 "same"), chunkId (Chunk.mk "a.pdf" 0 "same")] :=
  distinct_sources_distinct_vectors "g" 1 (Chunk.mk "a.pdf" 0 "same")
    (Chunk.mk "b.pdf" 0 "same") (by decide) (by decide) (by decide)

/-! ### Chunker claims -/

/-- C4: the chunker returns the empty chunk sequence for the empty list of
input documents, and does not fail. -/
theorem split_pdf_nil : split_pdf [] = [] := rfl

theorem chunkSpans_1000 : chunkSpans 512 64 1000 = [(0, 512), (448, 960), (896, 1000)] := by
  decide

theorem sliceStr_length (t : String) (a b : Nat) :
    (sliceStr t a b).length = min (b - a) (t.length - a) := by
  show ((t.data.drop a).take (b - a)).length = min (b - a) (t.data.length - a)
  rw [List.length_take, List.length_drop]

/-- C5: chunking any 1000-character document with window 512 and overlap 64
produces exactly three chunks whose character spans are [0,512), [448,960)
and [896,1000), in document order. -/
theorem split_pdf_1000_spans (d : Document) (h : d.text.length = 1000) :
    (split_pdf [d]).map (fun c => (c.position, c.position + c.text.length)) =
      [(0, 512), (448, 960), (896, 1000)] := by
  have h1 : split_pdf [d] = splitDocument d := by simp [split_pdf]
  rw [h1]
  unfold splitDocument
  rw [h, chunkSpans_1000]
  simp only [List.map_cons, List.map_nil]
  simp [sliceStr_length, h]

def d1000 : Document := ⟨"doc.pdf", String.mk (List.replicate 1000 'x')⟩

/-- Witness for C5 at a concrete 1000-character document. -/
theorem split_pdf_1000_spans_witness :
    (split_pdf [d1000]).map (fun c => (c.position, c.position + c.text.length)) =
      [(0, 512), (448, 960), (896, 1000)] :=
  split_pdf_1000_spans d1000 (by
    show (List.replicate 1000 'x').length = 1000
    rw [List.length_replicate])

/-! ### Referential consistency of ledger and vector store -/

@[simp] theorem entryFor_key (g : String) (t : Nat) (c : Chunk) :
    (entryFor g t c).key = chunkId c := rfl

theorem mem_keys_ledgerUpsert {g : String} {t : Nat} {L : List LedgerEntry} {c : Chunk}
    {k : String × String} :
    k ∈ (ledgerUpsert g t L c).map LedgerEntry.key ↔
      k = chunkId c ∨ k ∈ L.map LedgerEntry.key := by
  simp only [ledgerUpsert, List.map_cons, List.mem_cons, entryFor_key]
  constructor
  · rintro (h | h)
    · exact Or.inl h
    · rcases List.mem_map.mp h with ⟨e, he, hk⟩
      exact Or.inr (List.mem_map.mpr ⟨e, (List.mem_filter.mp he).1, hk⟩)
  · rintro (h | h)
    · exact Or.inl h
    · by_cases hkc : k = chunkId c
      · exact Or.inl hkc
      · rcases List.mem_map.mp h with ⟨e, he, hk⟩
        refine Or.inr (List.mem_map.mpr ⟨e, List.mem_filter.mpr ⟨he, ?_⟩, hk⟩)
        simp only [decide_eq_true_eq]
        rw [hk]
        exact hkc

theorem mem_keys_foldl_ledgerUpsert (g : String) (t : Nat) :
    ∀ (C : List Chunk) (L : List LedgerEntry) (k : String × String),
      k ∈ (C.foldl (ledgerUpsert g t) L).map LedgerEntry.key ↔
        k ∈ L.map LedgerEntry.key ∨ k ∈ C.map chunkId
  | [], L, k => by simp
  | c :: C, L, k => by
    rw [List.foldl_cons, mem_keys_foldl_ledgerUpsert g t C (ledgerUpsert g t L c) k,
      mem_keys_ledgerUpsert]
    simp only [List.map_cons, List.mem_cons]
    tauto

theorem mem_fst_storeUpsert {S : List ((String × String) × Chunk)} {c : Chunk}
    {k : String × String} :
    k ∈ (storeUpsert S c).map Prod.fst ↔ k = chunkId c ∨ k ∈ S.map Prod.fst := by
  simp only [storeUpsert, List.map_cons, List.mem_cons]
  constructor
  · rintro (h | h)
    · exact Or.inl h
    · rcases List.mem_map.mp h with ⟨p, hp, hk⟩
      exact Or.inr (List.mem_map.mpr ⟨p, (List.mem_filter.mp hp).1, hk⟩)
  · rintro (h | h)
    · exact Or.inl h
    · by_cases hkc : k = chunkId c
      · exact Or.inl hkc
      · rcases List.mem_map.mp h with ⟨p, hp, hk⟩
        refine Or.inr (List.mem_map.mpr ⟨p, List.mem_filter.mpr ⟨hp, ?_⟩, hk⟩)
        simp only [decide_eq_true_eq]
        rw [hk]
        exact hkc

theorem mem_fst_foldl_storeUpsert :
    ∀ (C : List Chunk) (S : List ((String × String) × Chunk)) (k : String × String),
      k ∈ (C.foldl storeUpsert S).map Prod.fst ↔
        k ∈ S.map Prod.fst ∨ k ∈ C.map chunkId
  | [], S, k => by simp
  | c :: C, S, k => by
    rw [List.foldl_cons, mem_fst_foldl_storeUpsert C (storeUpsert S c) k,
      mem_fst_storeUpsert]
    simp only [List.map_cons, List.mem_cons]
    tauto

theorem nodup_map_filter {α β : Type} (f : α → β) (p : α → Bool) {l : List α}
    (h : (l.map f).Nodup) : ((l.filter p).map f).Nodup :=
  List.Nodup.sublist (List.Sublist.map f (List.filter_sublist l)) h

theorem nodup_keys_ledgerUpsert {g : String} {t : Nat} {L : List LedgerEntry} {c : Chunk}
    (h : (L.map LedgerEntry.key).Nodup) :
    ((ledgerUpsert g t L c).map LedgerEntry.key).Nodup := by
  unfold ledgerUpsert
  rw [List.map_cons, List.nodup_cons]
  refine ⟨?_, nodup_map_filter _ _ h⟩
  intro hmem
  rcases List.mem_map.mp hmem with ⟨e, he, hk⟩
  have hne := (List.mem_filter.mp he).2
  simp only [decide_eq_true_eq] at hne
  exact hne hk

theorem nodup_keys_foldl_ledgerUpsert (g : String) (t : Nat) :
    ∀ (C : List Chunk) (L : List LedgerEntry),
      (L.map LedgerEntry.key).Nodup →
      ((C.foldl (ledgerUpsert g t) L).map LedgerEntry.key).Nodup
  | [], _, h => h
  | c :: C, L, h => by
    rw [List.foldl_cons]
    exact nodup_keys_foldl_ledgerUpsert g t C (ledgerUpsert g t L c)
      (nodup_keys_ledgerUpsert h)

theorem nodup_fst_storeUpsert {S : List ((String × String) × Chunk)} {c : Chunk}
    (h : (S.map Prod.fst).Nodup) :
    ((storeUpsert S c).map Prod.fst).Nodup := by
  unfold storeUpsert
  rw [List.map_cons, List.nodup_cons]
  refine ⟨?_, nodup_map_filter _ _ h⟩
  intro hmem
  rcases List.mem_map.mp hmem with ⟨p, hp, hk⟩
  have hne := (List.mem_filter.mp hp).2
  simp only [decide_eq_true_eq] at hne
  exact hne hk

theorem nodup_fst_foldl_storeUpsert :
    ∀ (C : List Chunk) (S : List ((String × String) × Chunk)),
      (S.map Prod.fst).Nodup →
      ((C.foldl storeUpsert S).map Prod.fst).Nodup
  | [], _, h => h
  | c :: C, S, h => by
    rw [List.foldl_cons]
    exact nodup_fst_foldl_storeUpsert C (storeUpsert S c) (nodup_fst_storeUpsert h)

theorem mem_fst_filter_not_mem {S : List ((String × String) × Chunk)}
    {bad : List (String × String)} {k : String × String} :
    k ∈ (S.filter fun p => decide (p.1 ∉ bad)).map Prod.fst ↔
      k ∈ S.map Prod.fst ∧ k ∉ bad := by
  constructor
  · intro h
    rcases List.mem_map.mp h with ⟨p, hp, hk⟩
    have hf := List.mem_filter.mp hp
    refine ⟨List.mem_map.mpr ⟨p, hf.1, hk⟩, ?_⟩
    have hnb := hf.2
    simp only [decide_eq_true_eq] at hnb
    rw [← hk]
    exact hnb
  · rintro ⟨h, hnb⟩
    rcases List.mem_map.mp h with ⟨p, hp, hk⟩
    refine List.mem_map.mpr ⟨p, List.mem_filter.mpr ⟨hp, ?_⟩, hk⟩
    simp only [decide_eq_true_eq]
    rw [hk]
    exact hnb

theorem mem_keys_filter_not_stale {L : List LedgerEntry}
    (hnd : (L.map LedgerEntry.key).Nodup) (g : String) (t : Nat) {k : String × String} :
    k ∈ (L.filter fun e => !isStale g t e).map LedgerEntry.key ↔
      k ∈ L.map LedgerEntry.key ∧ k ∉ (L.filter (isStale g t)).map LedgerEntry.key := by
  constructor
  · intro h
    rcases List.mem_map.mp h with ⟨e, he, hk⟩
    have hf := List.mem_filter.mp he
    refine ⟨List.mem_map.mpr ⟨e, hf.1, hk⟩, ?_⟩
    intro hmem
    rcases List.mem_map.mp hmem with ⟨e2, he2, hk2⟩
    have he2f := List.mem_filter.mp he2
    have heq : e = e2 :=
      List.inj_on_of_nodup_map hnd hf.1 he2f.1 (by rw [hk, hk2])
    have hns : (!isStale g t e2) = true := heq ▸ hf.2
    rw [he2f.2] at hns
    simp at hns
  · rintro ⟨h, hns⟩
    rcases List.mem_map.mp h with ⟨e, he, hk⟩
    refine List.mem_map.mpr ⟨e, List.mem_filter.mpr ⟨he, ?_⟩, hk⟩
    cases hst : isStale g t e
    · rfl
    · exact absurd (List.mem_map.mpr ⟨e, List.mem_filter.mpr ⟨he, hst⟩, hk⟩) hns

/-- Referential consistency (spec section 3 invariant): a ledger entry for a
key exists iff a vector with that id exists in the vector store. -/
def consistent (st : RMState) : Prop :=
  ∀ k, k ∈ st.ledger.map LedgerEntry.key ↔ k ∈ st.store.map Prod.fst

/-- Well-formed ledger/store pair: duplicate-free key sets on both sides,
and referentially consistent. -/
def wf (st : RMState) : Prop :=
  (st.ledger.map LedgerEntry.key).Nodup ∧ (st.store.map Prod.fst).Nodup ∧ consistent st

/-- C8: every reconciliation run — any cleanup mode — preserves referential
consistency between the ledger and the vector store: afterwards a ledger
entry for a chunk id exists iff a vector with that id exists. -/
theorem reconcile_preserves_consistency (g : String) (C : List Chunk)
    (mode : CleanupMode) (t : Nat) (st : RMState) (h : wf st) :
    wf (reconcile g C mode t st).2 := by
  obtain ⟨hL, hS, hcons⟩ := h
  have hL1nd := nodup_keys_foldl_ledgerUpsert g t C st.ledger hL
  have hS1nd := nodup_fst_foldl_storeUpsert
    (C.filter fun c => !isUnchanged st.ledger c) st.store hS
  have hcons1 : ∀ k,
      k ∈ (C.foldl (ledgerUpsert g t) st.ledger).map LedgerEntry.key ↔
      k ∈ ((C.filter fun c => !isUnchanged st.ledger c).foldl storeUpsert st.store).map
        Prod.fst := by
    intro k
    rw [mem_keys_foldl_ledgerUpsert, mem_fst_foldl_storeUpsert]
    constructor
    · rintro (h | h)
      · exact Or.inl ((hcons k).mp h)
      · rcases List.mem_map.mp h with ⟨c, hc, hk⟩
        by_cases hu : isUnchanged st.ledger c = true
        · rcases isUnchanged_iff.mp hu with ⟨e, he, hek, -⟩
          exact Or.inl ((hcons k).mp (List.mem_map.mpr ⟨e, he, by rw [hek, hk]⟩))
        · refine Or.inr (List.mem_map.mpr ⟨c, List.mem_filter.mpr ⟨hc, ?_⟩, hk⟩)
          simp [hu]
    · rintro (h | h)
      · exact Or.inl ((hcons k).mpr h)
      · rcases List.mem_map.mp h with ⟨c, hc, hk⟩
        exact Or.inr (List.mem_map.mpr ⟨c, (List.mem_filter.mp hc).1, hk⟩)
  cases mode
  case incremental => exact ⟨hL1nd, hS1nd, hcons1⟩
  case nocleanup => exact ⟨hL1nd, hS1nd, hcons1⟩
  case full =>
    refine ⟨nodup_map_filter _ _ hL1nd, nodup_map_filter _ _ hS1nd, ?_⟩
    intro k
    show k ∈ (List.filter _ _).map LedgerEntry.key ↔ k ∈ (List.filter _ _).map Prod.fst
    rw [mem_keys_filter_not_stale hL1nd g t, mem_fst_filter_not_mem]
    constructor
    · rintro ⟨h1, h2⟩
      exact ⟨(hcons1 k).mp h1, h2⟩
    · rintro ⟨h1, h2⟩
      exact ⟨(hcons1 k).mpr h1, h2⟩

/-- Witness for C8: the invariant holds after a concrete run from the empty
(trivially consistent) state. -/
theorem reconcile_preserves_consistency_witness :
    wf (reconcile "g" [ca] CleanupMode.full 1 emptyRM).2 :=
  reconcile_preserves_consistency "g" [ca] CleanupMode.full 1 emptyRM
    ⟨by simp [emptyRM], by simp [emptyRM], fun k => by simp [emptyRM]⟩

/-! ### Backend dimension checking (C6) -/

theorem pineconeDim_setup (indexName : String) (dim : Nat) (st : PineconeState)
    (hpos : ∀ p ∈ st.indexes, 0 < p.2) :
    pineconeDim (setup_pinecone indexName dim st) indexName = some dim := by
  rcases hfind : st.indexes.find? (fun p => decide (p.1 = indexName)) with _ | q
  · have hany : (st.indexes.any fun p => decide (p.1 = indexName)) = false := by
      rw [List.any_eq_false]
      intro p hp
      exact List.find?_eq_none.mp hfind p hp
    simp only [setup_pinecone, pineconeDim, hfind, hany, Option.map_none', Bool.false_and,
      Bool.not_false, Bool.and_true, if_neg, Bool.false_eq_true, not_false_iff, if_false]
    rw [List.find?_cons_of_pos _ (by simp)]
    simp
  · have hq1 : q.1 = indexName := by
      have := List.find?_some hfind
      simpa using this
    have hqmem : q ∈ st.indexes := List.mem_of_find?_eq_some hfind
    have hany : (st.indexes.any fun p => decide (p.1 = indexName)) = true :=
      List.any_eq_true.mpr ⟨q, hqmem, by simp [hq1]⟩
    by_cases hdim : q.2 = dim
    · simp only [setup_pinecone, pineconeDim, hfind, hany, Option.map_some', hdim]
      simp [hfind, hdim]
    · have hne0 : q.2 ≠ 0 := Nat.pos_iff_ne_zero.mp (hpos q hqmem)
      have hbb : (decide (q.2 ≠ 0) && decide (q.2 ≠ dim)) = true := by
        simp [hne0, hdim]
      simp only [setup_pinecone, pineconeDim, hfind, hany, Option.map_some', hbb]
      simp only [Bool.and_self, Bool.not_true, Bool.and_false, Bool.false_eq_true, if_false,
        if_true]
      rw [List.find?_cons_of_pos _ (by simp)]
      simp

theorem VectorDB_index_preserves_backends (g : String) (t : Nat) (up : Uploaded)
    (tempDir : String) (fs : FS) (v : VDB) :
    (VectorDB_index g t up tempDir fs v).2.2.pinecone = v.pinecone ∧
    (VectorDB_index g t up tempDir fs v).2.2.chroma = v.chroma := by
  unfold VectorDB_index
  rcases hex : extract_pdf up tempDir fs with ⟨fs1, r⟩
  cases r with
  | error e => simp
  | ok dir =>
    cases hf : fs1.find? fun p => decide (p.1 = dir) with
    | none => simp [hf]
    | some de =>
      cases hl : load_pdf_directory de.2 with
      | error e => simp [hf, hl]
      | ok docs => simp [hf, hl]

/-- C6 (amended): only the pinecone backend enforces embedding-dimension
compatibility.  Initializing a `VectorDB` with the pinecone backend inspects
the existing index's dimension and deletes and recreates the index on a
mismatch, so after initialization the named index carries exactly the
configured dimension; the check happens only during initialization — an
indexing call never modifies either backend's collection state.  The chroma
backend performs no such check (see the counterexample). -/
theorem pinecone_dimension_check_on_init (indexName : String) (dim : Nat)
    (pc : PineconeState) (ch : ChromaState) (rm : RMState)
    (hpos : ∀ p ∈ pc.indexes, 0 < p.2)
    (g : String) (t : Nat) (up : Uploaded) (tempDir : String) (fs : FS) (v : VDB) :
    pineconeDim (VectorDB_init "pinecone" indexName dim pc ch rm).pinecone indexName =
      some dim ∧
    (VectorDB_index g t up tempDir fs v).2.2.pinecone = v.pinecone ∧
    (VectorDB_index g t up tempDir fs v).2.2.chroma = v.chroma := by
  refine ⟨?_, VectorDB_index_preserves_backends g t up tempDir fs v⟩
  show pineconeDim (setup_pinecone indexName dim pc) indexName = some dim
  exact pineconeDim_setup indexName dim pc hpos

def goodFile : UFile := ⟨"good.pdf", true, false, "hello world"⟩
def badFile : UFile := ⟨"bad.pdf", true, true, ""⟩
def lockedFile : UFile := ⟨"locked.pdf", false, false, ""⟩

/-- Witness for C6 (amended): a pinecone index that exists with dimension
384 while the model is configured for 1536 dimensions is recreated with
1536 during initialization, and an indexing call leaves both backend states
alone. -/
theorem pinecone_dimension_check_on_init_witness :
    pineconeDim (VectorDB_init "pinecone" "idx" 1536 (PineconeState.mk [("idx", 384)])
        (ChromaState.mk []) emptyRM).pinecone "idx" = some 1536 ∧
    (VectorDB_index "g" 1 (Uploaded.single goodFile) "tmp" []
        (VDB.mk (PineconeState.mk [("idx", 384)]) (ChromaState.mk []) emptyRM)).2.2.pinecone =
      (VDB.mk (PineconeState.mk [("idx", 384)]) (ChromaState.mk []) emptyRM).pinecone ∧
    (VectorDB_index "g" 1 (Uploaded.single goodFile) "tmp" []
        (VDB.mk (PineconeState.mk [("idx", 384)]) (ChromaState.mk []) emptyRM)).2.2.chroma =
      (VDB.mk (PineconeState.mk [("idx", 384)]) (ChromaState.mk []) emptyRM).chroma :=
  pinecone_dimension_check_on_init "idx" 1536 (PineconeState.mk [("idx", 384)])
    (ChromaState.mk []) emptyRM (by decide) "g" 1 (Uploaded.single goodFile) "tmp" []
    (VDB.mk (PineconeState.mk [("idx", 384)]) (ChromaState.mk []) emptyRM)

/-- C6 counterexample: the chroma backend performs no dimension check.
Initializing a `VectorDB` over an existing chroma collection populated with
384-dimensional embeddings while the configured model produces
1536-dimensional embeddings leaves the mismatched collection in place —
nothing is recreated. -/
theorem chroma_no_dimension_check :
    chromaDim (VectorDB_init "chroma" "idx" 1536 (PineconeState.mk [])
        (ChromaState.mk [("idx", some 384)]) emptyRM).chroma "idx" = some 384 ∧
    chromaDim (VectorDB_init "chroma" "idx" 1536 (PineconeState.mk [])
        (ChromaState.mk [("idx", some 384)]) emptyRM).chroma "idx" ≠ some 1536 := by
  decide

/-! ### Extraction errors abort the whole run (C7, C9) -/

theorem writeFiles_error :
    ∀ (files : List UFile) (i : Nat), (∃ f ∈ files, f.readable = false) →
      ∃ e, writeFiles files i = .error e
  | [], _, h => absurd h (by simp)
  | f :: rest, i, h => by
    cases hr : f.readable with
    | false =>
      exact ⟨"Failed to extract PDF: could not read " ++ f.name, by simp [writeFiles, hr]⟩
    | true =>
      have hex : ∃ g ∈ rest, g.readable = false := by
        rcases h with ⟨g, hg, hgr⟩
        rcases List.mem_cons.mp hg with rfl | hg2
        · rw [hr] at hgr; cases hgr
        · exact ⟨g, hg2, hgr⟩
      rcases writeFiles_error rest (i + 1) hex with ⟨e, he⟩
      exact ⟨e, by simp [writeFiles, hr, he, Except.map]⟩

theorem writeFiles_ok :
    ∀ (files : List UFile) (i : Nat), (∀ f ∈ files, f.readable = true) →
      ∃ ws, writeFiles files i = .ok ws ∧ ws.map Prod.snd = files
  | [], _, _ => ⟨[], rfl, rfl⟩
  | f :: rest, i, h => by
    have hr : f.readable = true := h f (List.mem_cons_self f rest)
    rcases writeFiles_ok rest (i + 1) (fun g hg => h g (List.mem_cons_of_mem f hg)) with
      ⟨ws, hws, hmap⟩
    exact ⟨(toString i ++ "_" ++ f.name, f) :: ws,
      by simp [writeFiles, hr, hws, Except.map], by simp [hmap]⟩

theorem writeFiles_length :
    ∀ (files : List UFile) (i : Nat) (ws : List (String × UFile)),
      writeFiles files i = .ok ws → ws.length = files.length
  | [], _, ws, h => by
    simp only [writeFiles] at h
    cases h
    rfl
  | f :: rest, i, ws, h => by
    simp only [writeFiles] at h
    cases hr : f.readable with
    | false => rw [hr] at h; simp at h
    | true =>
      rw [hr] at h
      simp only [if_true] at h
      cases hw : writeFiles rest (i + 1) with
      | error e => rw [hw] at h; simp [Except.map] at h
      | ok ws2 =>
        rw [hw] at h
        simp only [Except.map] at h
        cases h
        simp [writeFiles_length rest (i + 1) ws2 hw]

theorem load_pdf_directory_error :
    ∀ (ws : List (String × UFile)), (∃ p ∈ ws, p.2.malformed = true) →
      ∃ e, load_pdf_directory ws = .error e
  | [], h => absurd h (by simp)
  | (n, f) :: rest, h => by
    cases hm : f.malformed with
    | true => exact ⟨"could not parse " ++ n, by simp [load_pdf_directory, hm]⟩
    | false =>
      have hex : ∃ p ∈ rest, p.2.malformed = true := by
        rcases h with ⟨p, hp, hpm⟩
        rcases List.mem_cons.mp hp with rfl | hp2
        · rw [hm] at hpm; cases hpm
        · exact ⟨p, hp2, hpm⟩
      rcases load_pdf_directory_error rest hex with ⟨e, he⟩
      exact ⟨e, by simp [load_pdf_directory, hm, he, Except.map]⟩

/-- C7 (amended): when any document of the uploaded batch is malformed or
unreadable, `VectorDB.index` aborts the whole run with an error and indexes
none of the documents — the ledger, vector store and backend states are all
left untouched; the other documents in the batch are not processed. -/
theorem extraction_error_aborts_run (g : String) (t : Nat) (files : List UFile)
    (tempDir : String) (fs : FS) (v : VDB)
    (hbad : ∃ f ∈ files, f.readable = false ∨ f.malformed = true) :
    isOkE (VectorDB_index g t (Uploaded.multiple files) tempDir fs v).1 = false ∧
    (VectorDB_index g t (Uploaded.multiple files) tempDir fs v).2.2 = v := by
  by_cases hall : ∀ f ∈ files, f.readable = true
  · -- every file is readable, so some file must be malformed: the load step fails
    have hmal : ∃ f ∈ files, f.malformed = true := by
      rcases hbad with ⟨f, hf, hfr | hfm⟩
      · rw [hall f hf] at hfr; cases hfr
      · exact ⟨f, hf, hfm⟩
    rcases writeFiles_ok files 0 hall with ⟨ws, hws, hmap⟩
    have hmal2 : ∃ p ∈ ws, p.2.malformed = true := by
      rcases hmal with ⟨f, hf, hfm⟩
      rw [← hmap] at hf
      rcases List.mem_map.mp hf with ⟨p, hp, hpf⟩
      exact ⟨p, hp, by rw [hpf]; exact hfm⟩
    rcases load_pdf_directory_error ws hmal2 with ⟨e, he⟩
    have hextract : extract_pdf (Uploaded.multiple files) tempDir fs =
        ((tempDir, ws) :: fs, .ok tempDir) := by
      simp [extract_pdf, normalizeUploaded, hws]
    simp only [VectorDB_index, hextract]
    rw [List.find?_cons_of_pos _ (by simp)]
    simp [he, isOkE]
  · -- some file is unreadable: the extraction step fails
    have hex : ∃ f ∈ files, f.readable = false := by
      push_neg at hall
      rcases hall with ⟨f, hf, hfr⟩
      exact ⟨f, hf, by simpa using hfr⟩
    rcases writeFiles_error files 0 hex with ⟨e, he⟩
    have hextract : extract_pdf (Uploaded.multiple files) tempDir fs = (fs, .error e) := by
      simp [extract_pdf, normalizeUploaded, he]
    simp [VectorDB_index, hextract, isOkE]

/-- Witness for C7 (amended) at a concrete batch with one malformed file. -/
theorem extraction_error_aborts_run_witness :
    isOkE (VectorDB_index "g" 1 (Uploaded.multiple [goodFile, badFile]) "tmp" []
        (VDB.mk (PineconeState.mk []) (ChromaState.mk []) emptyRM)).1 = false ∧
    (VectorDB_index "g" 1 (Uploaded.multiple [goodFile, badFile]) "tmp" []
        (VDB.mk (PineconeState.mk []) (ChromaState.mk []) emptyRM)).2.2 =
      VDB.mk (PineconeState.mk []) (ChromaState.mk []) emptyRM :=
  extraction_error_aborts_run "g" 1 [goodFile, badFile] "tmp" []
    (VDB.mk (PineconeState.mk []) (ChromaState.mk []) emptyRM) (by decide)

/-- C7 counterexample: with a batch holding one good and one malformed
document, the run does not skip the malformed document and continue with
the good one — it aborts with an error and the good document is not indexed
either: the vector store stays empty. -/
theorem extraction_error_no_skip_example :
    isOkE (VectorDB_index "g" 1 (Uploaded.multiple [goodFile, badFile]) "tmp" []
        (VDB.mk (PineconeState.mk []) (ChromaState.mk []) emptyRM)).1 = false ∧
    (VectorDB_index "g" 1 (Uploaded.multiple [goodFile, badFile]) "tmp" []
        (VDB.mk (PineconeState.mk []) (ChromaState.mk []) emptyRM)).2.2.rm.store = [] := by
  decide

/-- C9: `extract_pdf` is atomic with respect to its temporary directory: on
success it returns the fresh directory holding exactly one written file per
uploaded input (a single non-list input counts as a one-element list); on
failure the whole directory is removed again, leaving the filesystem
exactly as before. -/
theorem extract_pdf_atomic (up : Uploaded) (tempDir : String) (fs : FS) :
    (isOkE (extract_pdf up tempDir fs).2 = true →
      ∃ ws, (extract_pdf up tempDir fs).1 = (tempDir, ws) :: fs ∧
        ws.length = (normalizeUploaded up).length ∧
        (extract_pdf up tempDir fs).2 = Except.ok tempDir) ∧
    (isOkE (extract_pdf up tempDir fs).2 = false →
      (extract_pdf up tempDir fs).1 = fs) := by
  unfold extract_pdf
  cases hw : writeFiles (normalizeUploaded up) 0 with
  | ok ws =>
    refine ⟨fun _ => ⟨ws, rfl, writeFiles_length _ 0 ws hw, rfl⟩, fun hfalse => ?_⟩
    simp [isOkE] at hfalse
  | error e =>
    refine ⟨fun htrue => ?_, fun _ => rfl⟩
    simp [isOkE] at htrue

/-- Witness for C9: a successful single-file extraction writes exactly one
file into the fresh directory; an extraction with an unreadable file leaves
the filesystem unchanged. -/
theorem extract_pdf_atomic_witness :
    (∃ ws, (extract_pdf (Uploaded.single goodFile) "tmp" []).1 = ("tmp", ws) :: ([] : FS) ∧
      ws.length = 1 ∧ (extract_pdf (Uploaded.single goodFile) "tmp" []).2 = Except.ok "tmp") ∧
    (extract_pdf (Uploaded.multiple [goodFile, lockedFile]) "tmp" []).1 = ([] : FS) := by
  constructor
  · exact (extract_pdf_atomic (Uploaded.single goodFile) "tmp" []).1 (by decide)
  · exact (extract_pdf_atomic (Uploaded.multiple [goodFile, lockedFile]) "tmp" []).2 (by decide)

/-! ### Only the first uploaded file is indexed (C10) -/

/-- C10: although the UI accepts multiple uploaded PDF files, the
knowledge-base update passes only the first element of the uploaded-file
list into the indexing chain: with two or more files uploaded the update is
exactly the update for the first file alone, and `load_chain` likewise
receives only the first file — the remaining files are never indexed in
that update. -/
theorem main_update_only_first_file (g : String) (t : Nat) (f0 f1 : UFile)
    (rest : List UFile) (tempDir : String) (fs : FS) (v : VDB) :
    knowledge_update_arg (f0 :: f1 :: rest) true = some f0 ∧
    load_chain_uploaded_file (f0 :: f1 :: rest) = some f0 ∧
    main_knowledge_update g t (f0 :: f1 :: rest) true tempDir fs v =
      main_knowledge_update g t [f0] true tempDir fs v :=
  ⟨rfl, rfl, rfl⟩

end RAG
